import Mathlib

/-!
Verification of the namedlock `LockSpace` engine (src/src/lib.rs together
with src/src/arcmutexguard.rs, src/src/lockresult.rs and the orphaned
src/src/ownedmutexguard.rs).

The embedding is a sequential state machine.  A `Space K V` models a
`LockSpace<K,V>`: the `Arc<Mutex<V>>` allocations live in a heap (a list
indexed by allocation id) and the `HashMap<ArcHashKey<K>,LockSpaceEntry<K,V>>`
is an association list from keys to heap ids.  Every `Arc` strong count is
tracked explicitly in the heap entry and is incremented or decremented at
exactly the points where the Rust source clones or drops an `Arc`.  Every
operation additionally returns the list of locking events it performs, in
source order, so that ordering claims (which lock is held when) can be
stated about the trace.
-/

namespace NamedLock

/-- `Cleanup` from lib.rs (`KeepUnused` / `AutoCleanup`). -/
inductive Cleanup : Type where
  | KeepUnused : Cleanup
  | AutoCleanup : Cleanup
deriving DecidableEq, Repr

/-- The state of one `Mutex<V>`: unlocked, held, or poisoned. -/
inductive LockState : Type where
  | Unlocked : LockState
  | Locked : LockState
  | Poisoned : LockState
deriving DecidableEq, Repr

/-- One `Arc<Mutex<V>>` allocation: the protected value, the mutex state and
the current `Arc` strong count. -/
structure Entry (V : Type) : Type where
  value : V
  lockSt : LockState
  strong : Nat
deriving DecidableEq, Repr

/-- A `LockSpace<K,V>`: the heap of `Arc<Mutex<V>>` allocations, the
key-to-allocation map (the `HashMap` behind the outer mutex), and the
cleanup policy. -/
structure Space (K V : Type) : Type where
  heap : List (Entry V)
  names : List (K × Nat)
  cleanup : Cleanup
deriving DecidableEq, Repr

/-- Locking and reference-counting events, emitted in source order. -/
inductive Event (K : Type) : Type where
  | acquireOuter : Event K
  | releaseOuter : Event K
  | invokeInitial : Event K
  | insertEntry : K → Event K
  | cloneHandle : Nat → Event K
  | lockInner : Nat → Event K
  | tryLockInner : Nat → Event K
  | unlockInner : Nat → Event K
  | releaseHandle : Nat → Event K
  | removeKey : K → Event K
  | intoInner : Nat → Event K
deriving DecidableEq, Repr

/-- `LockSpaceRemoveResult` from lib.rs. -/
inductive RemoveResult : Type where
  | Success : RemoveResult
  | NotFound : RemoveResult
  | PoisonError : RemoveResult
  | WouldBlock : RemoveResult
deriving DecidableEq, Repr

/-- A `LockSpaceGuard`: it stores the cloned map entry (key plus allocation
id) and, implicitly, the `ArcMutexGuard` holding a second handle to the same
allocation. -/
structure Guard (K : Type) : Type where
  key : K
  entryId : Nat
deriving DecidableEq, Repr

/-- Outcome of `LockSpace::lock`: a guard, a poison error, a would-block
(the sequential model cannot wait), or a panic (unreachable index, which
cannot arise from well-formed states). -/
inductive Outcome (K : Type) : Type where
  | ok : Guard K → Outcome K
  | poisoned : Outcome K
  | blocked : Outcome K
  | panicked : Outcome K
deriving DecidableEq, Repr

/-- Result record of `LockSpace::lock`: outcome, post state, event trace and
the number of times `initial` was invoked. -/
structure LockRes (K V : Type) : Type where
  outcome : Outcome K
  space : Space K V
  trace : List (Event K)
  initCalls : Nat
deriving DecidableEq, Repr

/-- Point update of the heap at one allocation id (out-of-range ids are
untouched, which never happens from well-formed states). -/
def modifyAt {α : Type} : List α → Nat → (α → α) → List α
  | [], _, _ => []
  | a :: as, 0, f => f a :: as
  | a :: as, n + 1, f => a :: modifyAt as n f

/-- List lookup by position (the heap is indexed by allocation id). -/
def heapGet {α : Type} : List α → Nat → Option α
  | [], _ => none
  | a :: _, 0 => some a
  | _ :: as, n + 1 => heapGet as n

/-- `HashMap::get`: the value of the first pair whose key equals `k`. -/
def findName {K : Type} [DecidableEq K] : List (K × Nat) → K → Option Nat
  | [], _ => none
  | p :: rest, k => if p.1 = k then some p.2 else findName rest k

/-- `HashMap::remove`: drop the first pair whose key equals `k`. -/
def removeName {K : Type} [DecidableEq K] : List (K × Nat) → K → List (K × Nat)
  | [], _ => []
  | p :: rest, k => if p.1 = k then rest else p :: removeName rest k

/-- Shared continuation of `LockSpace::lock` once the entry for `key` is
known to be in the map at allocation id `id` (lib.rs lines 282-286):
clone the map entry (`target`), clone the inner `Arc` again for
`arc_mutex_lock`, lock the inner mutex, then release the outer lock.
On a poisoned inner mutex both clones are dropped again. -/
def lockAcquire {K V : Type} (heap : List (Entry V)) (names : List (K × Nat))
    (cl : Cleanup) (k : K) (id : Nat) (tr : List (Event K)) (calls : Nat) :
    LockRes K V :=
  let heap2 := modifyAt (modifyAt heap id (fun e => { e with strong := e.strong + 1 }))
      id (fun e => { e with strong := e.strong + 1 })
  let tr2 := tr ++ [Event.cloneHandle id, Event.cloneHandle id, Event.lockInner id]
  match heapGet heap2 id with
  | none =>
      { outcome := Outcome.panicked, space := ⟨heap2, names, cl⟩,
        trace := tr2, initCalls := calls }
  | some e =>
    match e.lockSt with
    | LockState.Unlocked =>
        { outcome := Outcome.ok ⟨k, id⟩,
          space := ⟨modifyAt heap2 id (fun e => { e with lockSt := LockState.Locked }),
                    names, cl⟩,
          trace := tr2 ++ [Event.releaseOuter], initCalls := calls }
    | LockState.Locked =>
        { outcome := Outcome.blocked, space := ⟨heap2, names, cl⟩,
          trace := tr2, initCalls := calls }
    | LockState.Poisoned =>
        { outcome := Outcome.poisoned,
          space := ⟨modifyAt (modifyAt heap2 id (fun e => { e with strong := e.strong - 1 }))
                      id (fun e => { e with strong := e.strong - 1 }),
                    names, cl⟩,
          trace := tr2 ++ [Event.releaseHandle id, Event.releaseOuter, Event.releaseHandle id],
          initCalls := calls }

/-- `LockSpace::lock` (lib.rs lines 269-287): acquire the outer lock; if the
key is absent invoke `initial` once and insert a fresh entry (strong count 1,
held by the map); then run the shared acquisition tail. -/
def lock {K V : Type} [DecidableEq K] (s : Space K V) (k : K)
    (initial : Unit → V) : LockRes K V :=
  match findName s.names k with
  | some id => lockAcquire s.heap s.names s.cleanup k id [Event.acquireOuter] 0
  | none =>
      lockAcquire (s.heap ++ [⟨initial (), LockState.Unlocked, 1⟩])
        (s.names ++ [(k, s.heap.length)]) s.cleanup k s.heap.length
        [Event.acquireOuter, Event.invokeInitial, Event.insertEntry k] 1

/-- Result of `LockSpace::try_remove_internal`. -/
structure InternalRes (K V : Type) : Type where
  result : RemoveResult
  heap : List (Entry V)
  names : List (K × Nat)
  trace : List (Event K)
deriving DecidableEq, Repr

/-- `LockSpace::try_remove_internal` (lib.rs lines 309-329).  The caller
holds the outer lock and has moved one cloned reference (`target`, key
`tkey`, allocation `tid`) into the call; its strong count is included in the
entry.  If the count exceeds 2 (map's reference plus `target`) the entry is
in use: `WouldBlock`.  Otherwise `try_lock` probes the inner mutex without
blocking; on success the transient guard is dropped at once and the map
entry is removed.  `target` is dropped before returning on every path. -/
def tryRemoveInternal {K V : Type} [DecidableEq K] (heap : List (Entry V))
    (names : List (K × Nat)) (tkey : K) (tid : Nat) : InternalRes K V :=
  match heapGet heap tid with
  | none =>
      { result := RemoveResult.WouldBlock, heap := heap, names := names, trace := [] }
  | some e =>
    if e.strong > 2 then
      { result := RemoveResult.WouldBlock,
        heap := modifyAt heap tid (fun e => { e with strong := e.strong - 1 }),
        names := names, trace := [Event.releaseHandle tid] }
    else
      match e.lockSt with
      | LockState.Unlocked =>
        match findName names tkey with
        | some mid =>
            { result := RemoveResult.Success,
              heap := modifyAt (modifyAt heap mid (fun e => { e with strong := e.strong - 1 }))
                        tid (fun e => { e with strong := e.strong - 1 }),
              names := removeName names tkey,
              trace := [Event.tryLockInner tid, Event.unlockInner tid, Event.removeKey tkey,
                        Event.releaseHandle mid, Event.releaseHandle tid] }
        | none =>
            { result := RemoveResult.NotFound,
              heap := modifyAt heap tid (fun e => { e with strong := e.strong - 1 }),
              names := names,
              trace := [Event.tryLockInner tid, Event.unlockInner tid, Event.releaseHandle tid] }
      | LockState.Locked =>
          { result := RemoveResult.WouldBlock,
            heap := modifyAt heap tid (fun e => { e with strong := e.strong - 1 }),
            names := names, trace := [Event.tryLockInner tid, Event.releaseHandle tid] }
      | LockState.Poisoned =>
          { result := RemoveResult.PoisonError,
            heap := modifyAt heap tid (fun e => { e with strong := e.strong - 1 }),
            names := names, trace := [Event.tryLockInner tid, Event.releaseHandle tid] }

/-- Result record of `LockSpace::try_remove`. -/
structure RemoveRes (K V : Type) : Type where
  result : RemoveResult
  space : Space K V
  trace : List (Event K)
deriving DecidableEq, Repr

/-- `LockSpace::try_remove` (lib.rs lines 338-350): acquire the outer lock;
absent key means `NotFound`; otherwise clone the map entry into `target`
and run `try_remove_internal` before releasing the outer lock. -/
def tryRemove {K V : Type} [DecidableEq K] (s : Space K V) (k : K) : RemoveRes K V :=
  match findName s.names k with
  | none =>
      { result := RemoveResult.NotFound, space := s,
        trace := [Event.acquireOuter, Event.releaseOuter] }
  | some id =>
      let r := tryRemoveInternal
          (modifyAt s.heap id (fun e => { e with strong := e.strong + 1 })) s.names k id
      { result := r.result, space := ⟨r.heap, r.names, s.cleanup⟩,
        trace := [Event.acquireOuter, Event.cloneHandle id] ++ r.trace ++ [Event.releaseOuter] }

/-- `ArcMutexGuard::drop` (arcmutexguard.rs lines 98-102): `self.guard=None`
releases the inner mutex; then the struct's own `Arc` field is dropped,
giving up one strong reference — strictly in that order. -/
def arcMutexGuardDrop {K V : Type} (heap : List (Entry V)) (id : Nat) :
    List (Entry V) × List (Event K) :=
  (modifyAt (modifyAt heap id (fun e => { e with lockSt := LockState.Unlocked }))
     id (fun e => { e with strong := e.strong - 1 }),
   [Event.unlockInner id, Event.releaseHandle id])

/-- Result record of `LockSpaceGuard::drop`. -/
structure DropRes (K V : Type) : Type where
  space : Space K V
  trace : List (Event K)
deriving DecidableEq, Repr

/-- `LockSpaceGuard::drop` (lib.rs lines 157-171): drop the `ArcMutexGuard`
(releasing the inner lock, then its handle), acquire the outer lock, take
the stored map entry, and either hand it to `try_remove_internal`
(`AutoCleanup`) or just drop this reference (`KeepUnused`), all before the
outer lock is released. -/
def guardDrop {K V : Type} [DecidableEq K] (s : Space K V) (g : Guard K) : DropRes K V :=
  let p := arcMutexGuardDrop (K := K) s.heap g.entryId
  match s.cleanup with
  | Cleanup.AutoCleanup =>
      let r := tryRemoveInternal p.1 s.names g.key g.entryId
      { space := ⟨r.heap, r.names, s.cleanup⟩,
        trace := p.2 ++ [Event.acquireOuter] ++ r.trace ++ [Event.releaseOuter] }
  | Cleanup.KeepUnused =>
      { space := ⟨modifyAt p.1 g.entryId (fun e => { e with strong := e.strong - 1 }),
                  s.names, s.cleanup⟩,
        trace := p.2 ++ [Event.acquireOuter, Event.releaseHandle g.entryId,
                         Event.releaseOuter] }

/-- Outcome of `LockSpace::with_lock` carrying the body's return value. -/
inductive WOutcome (R : Type) : Type where
  | ok : R → WOutcome R
  | poisoned : WOutcome R
  | blocked : WOutcome R
  | panicked : WOutcome R
deriving DecidableEq, Repr

/-- Result record of `LockSpace::with_lock`, counting invocations of
`initial` and of the body `f`. -/
structure WithRes (K V R : Type) : Type where
  outcome : WOutcome R
  space : Space K V
  trace : List (Event K)
  initCalls : Nat
  fCalls : Nat
deriving DecidableEq, Repr

/-- `LockSpace::with_lock` (lib.rs lines 300-305):
`self.lock(key,initial).map(|mut guard| f(&mut guard))`.  On success `f`
mutates the protected value through the guard and the guard is dropped when
the closure returns; on a poison error `f` is never invoked. -/
def withLock {K V R : Type} [DecidableEq K] (s : Space K V) (k : K)
    (initial : Unit → V) (f : V → R × V) : WithRes K V R :=
  let r := lock s k initial
  match r.outcome with
  | Outcome.ok g =>
      match heapGet r.space.heap g.entryId with
      | some e =>
          let d := guardDrop
              ⟨modifyAt r.space.heap g.entryId (fun e' => { e' with value := (f e.value).2 }),
               r.space.names, r.space.cleanup⟩ g
          { outcome := WOutcome.ok (f e.value).1, space := d.space,
            trace := r.trace ++ d.trace, initCalls := r.initCalls, fCalls := 1 }
      | none =>
          { outcome := WOutcome.panicked, space := r.space, trace := r.trace,
            initCalls := r.initCalls, fCalls := 0 }
  | Outcome.poisoned =>
      { outcome := WOutcome.poisoned, space := r.space, trace := r.trace,
        initCalls := r.initCalls, fCalls := 0 }
  | Outcome.blocked =>
      { outcome := WOutcome.blocked, space := r.space, trace := r.trace,
        initCalls := r.initCalls, fCalls := 0 }
  | Outcome.panicked =>
      { outcome := WOutcome.panicked, space := r.space, trace := r.trace,
        initCalls := r.initCalls, fCalls := 0 }

/-- `OwnedMutexGuard` (ownedmutexguard.rs, an orphaned module that lib.rs
never declares): it owns the mutex handle and the inner lock guard. -/
structure OwnedMutexGuard : Type where
  ownedMutex : Option Nat
  guardHeld : Bool
deriving DecidableEq, Repr

/-- Result record of `OwnedMutexGuard::into_inner`. -/
structure IntoInnerRes (K V : Type) : Type where
  heap : List (Entry V)
  returned : Option Nat
  trace : List (Event K)
deriving DecidableEq, Repr

/-- `OwnedMutexGuard::into_inner` (ownedmutexguard.rs lines 112-119):
`self.guard=None` releases the mutex lock, then the owned handle is taken
and returned to the caller — it is not dropped, so the strong count is
unchanged.  (`take().unwrap()` cannot fail: the field is `Some` until
consumed.) -/
def intoInner {K V : Type} (heap : List (Entry V)) (g : OwnedMutexGuard) :
    IntoInnerRes K V :=
  match g.ownedMutex with
  | some id =>
      { heap := modifyAt heap id (fun e => { e with lockSt := LockState.Unlocked }),
        returned := some id,
        trace := [Event.unlockInner id, Event.intoInner id] }
  | none => { heap := heap, returned := none, trace := [] }

/-- Event `a` occurs at a strictly earlier position than event `b` in the
trace `tr`. -/
def precedes {K : Type} (tr : List (Event K)) (a b : Event K) : Prop :=
  ∃ i : Fin tr.length, ∃ j : Fin tr.length, i.1 < j.1 ∧ tr.get i = a ∧ tr.get j = b

instance {K : Type} [DecidableEq K] (tr : List (Event K)) (a b : Event K) :
    Decidable (precedes tr a b) := by
  unfold precedes; infer_instance

/-- The events at which a thread can suspend: acquiring the outer lock and
blocking on an inner mutex.  `tryLockInner` is a non-blocking probe. -/
def blocking {K : Type} : Event K → Bool
  | Event.acquireOuter => true
  | Event.lockInner _ => true
  | _ => false

/-- A `LockSpace` together with the live `LockSpaceGuard`s that were handed
out and not yet dropped (a quiescent configuration: no acquisition or
removal is in flight). -/
structure World (K V : Type) : Type where
  space : Space K V
  guards : List (Guard K)
deriving DecidableEq, Repr

/-- How many map entries point at allocation `id`. -/
def idCount {K : Type} (ns : List (K × Nat)) (id : Nat) : Nat :=
  (ns.filter (fun p => p.2 = id)).length

/-- How many live guards hold allocation `id`. -/
def guardCount {K : Type} (gs : List (Guard K)) (id : Nat) : Nat :=
  (gs.filter (fun g => g.entryId = id)).length

/-- Drop the first occurrence of a guard from the live-guard list. -/
def removeGuard {K : Type} [DecidableEq K] : List (Guard K) → Guard K → List (Guard K)
  | [], _ => []
  | g' :: gs, g => if g' = g then gs else g' :: removeGuard gs g

/-- The reference-count bookkeeping of a quiescent configuration: every
allocation's strong count equals the number of map entries pointing at it
plus two for every live guard holding it (each `LockSpaceGuard` holds both
the cloned map entry and the `Arc` inside its `ArcMutexGuard`). -/
def refInvariant {K V : Type} (w : World K V) : Prop :=
  ∀ id e, heapGet w.space.heap id = some e →
    e.strong = idCount w.space.names id + 2 * guardCount w.guards id

/-- All allocation ids stored in the map or in live guards are in range. -/
def idsInBounds {K V : Type} (w : World K V) : Prop :=
  (∀ p ∈ w.space.names, p.2 < w.space.heap.length) ∧
  (∀ g ∈ w.guards, g.entryId < w.space.heap.length)

/-- `LockSpace::lock` at the configuration level: a successful call adds
one live guard. -/
def worldLock {K V : Type} [DecidableEq K] (w : World K V) (k : K)
    (initial : Unit → V) : World K V × Outcome K :=
  let r := lock w.space k initial
  match r.outcome with
  | Outcome.ok g => (⟨r.space, g :: w.guards⟩, r.outcome)
  | o => (⟨r.space, w.guards⟩, o)

/-- `LockSpaceGuard::drop` at the configuration level: the dropped guard
leaves the live-guard list. -/
def worldGuardDrop {K V : Type} [DecidableEq K] (w : World K V) (g : Guard K) :
    World K V :=
  ⟨(guardDrop w.space g).space, removeGuard w.guards g⟩

/-! ### Bookkeeping lemmas about the heap and the association list -/

theorem modifyAt_length {α : Type} (l : List α) (i : Nat) (f : α → α) :
    (modifyAt l i f).length = l.length := by
  induction l generalizing i with
  | nil => rfl
  | cons a as ih =>
    cases i with
    | zero => rfl
    | succ n => simp [modifyAt, ih]

theorem heapGet_modifyAt_self {α : Type} (l : List α) (i : Nat) (f : α → α) :
    heapGet (modifyAt l i f) i = (heapGet l i).map f := by
  induction l generalizing i with
  | nil => rfl
  | cons a as ih =>
    cases i with
    | zero => rfl
    | succ n => simpa [modifyAt, heapGet] using ih n

theorem heapGet_modifyAt_other {α : Type} (l : List α) (i j : Nat) (f : α → α)
    (h : j ≠ i) : heapGet (modifyAt l i f) j = heapGet l j := by
  induction l generalizing i j with
  | nil => rfl
  | cons a as ih =>
    cases i with
    | zero =>
      cases j with
      | zero => exact absurd rfl h
      | succ m => rfl
    | succ n =>
      cases j with
      | zero => rfl
      | succ m => simpa [modifyAt, heapGet] using ih n m (fun hh => h (by rw [hh]))

theorem modifyAt_congr {α : Type} (l : List α) (i : Nat) (f g : α → α)
    (h : ∀ a, f a = g a) : modifyAt l i f = modifyAt l i g := by
  induction l generalizing i with
  | nil => rfl
  | cons a as ih =>
    cases i with
    | zero => simp [modifyAt, h]
    | succ n => simp [modifyAt, ih n]

theorem modifyAt_idfun {α : Type} (l : List α) (i : Nat) :
    modifyAt l i (fun a => a) = l := by
  induction l generalizing i with
  | nil => rfl
  | cons a as ih =>
    cases i with
    | zero => rfl
    | succ n => simp [modifyAt, ih n]

theorem modifyAt_modifyAt {α : Type} (l : List α) (i : Nat) (f g : α → α) :
    modifyAt (modifyAt l i f) i g = modifyAt l i (fun a => g (f a)) := by
  induction l generalizing i with
  | nil => rfl
  | cons a as ih =>
    cases i with
    | zero => rfl
    | succ n => simp [modifyAt, ih n]

theorem modifyAt_append_length {α : Type} (l : List α) (a : α) (f : α → α) :
    modifyAt (l ++ [a]) l.length f = l ++ [f a] := by
  induction l with
  | nil => rfl
  | cons b bs ih => simp [modifyAt, ih]

theorem heapGet_append_length {α : Type} (l : List α) (a : α) :
    heapGet (l ++ [a]) l.length = some a := by
  induction l with
  | nil => rfl
  | cons b bs ih => simpa [heapGet] using ih

theorem heapGet_append_lt {α : Type} (l l' : List α) (i : Nat) (h : i < l.length) :
    heapGet (l ++ l') i = heapGet l i := by
  induction l generalizing i with
  | nil => exact absurd h (by simp)
  | cons b bs ih =>
    cases i with
    | zero => rfl
    | succ n => simpa [heapGet] using ih n (by simpa using h)

theorem heapGet_some_of_lt {α : Type} (l : List α) (i : Nat) (h : i < l.length) :
    ∃ a, heapGet l i = some a := by
  induction l generalizing i with
  | nil => exact absurd h (by simp)
  | cons b bs ih =>
    cases i with
    | zero => exact ⟨b, rfl⟩
    | succ n => simpa [heapGet] using ih n (by simpa using h)

theorem findName_eq_none_of_not_mem {K : Type} [DecidableEq K]
    (ns : List (K × Nat)) (k : K) (h : ∀ p ∈ ns, p.1 ≠ k) :
    findName ns k = none := by
  induction ns with
  | nil => rfl
  | cons p rest ih =>
    rw [findName, if_neg (h p (List.mem_cons_self p rest))]
    exact ih (fun q hq => h q (List.mem_cons_of_mem p hq))

theorem findName_append_absent {K : Type} [DecidableEq K] (ns : List (K × Nat))
    (k : K) (id : Nat) (h : findName ns k = none) :
    findName (ns ++ [(k, id)]) k = some id := by
  induction ns with
  | nil => simp [findName]
  | cons p rest ih =>
    rw [findName] at h
    rw [List.cons_append, findName]
    by_cases hp : p.1 = k
    · rw [if_pos hp] at h; exact absurd h (by simp)
    · rw [if_neg hp] at h; rw [if_neg hp]; exact ih h

theorem findName_removeName_self {K : Type} [DecidableEq K] (ns : List (K × Nat))
    (k : K) (hnd : (ns.map Prod.fst).Nodup) :
    findName (removeName ns k) k = none := by
  induction ns with
  | nil => rfl
  | cons p rest ih =>
    rw [List.map_cons, List.nodup_cons] at hnd
    by_cases hp : p.1 = k
    · rw [removeName, if_pos hp]
      exact findName_eq_none_of_not_mem rest k
        (fun q hq hqk => hnd.1 (by
          rw [hp, ← hqk]
          exact List.mem_map_of_mem Prod.fst hq))
    · rw [removeName, if_neg hp, findName, if_neg hp]
      exact ih hnd.2

theorem idCount_append_single {K : Type} (ns : List (K × Nat)) (k : K)
    (j i : Nat) :
    idCount (ns ++ [(k, j)]) i = idCount ns i + (if j = i then 1 else 0) := by
  by_cases h : j = i <;> simp [idCount, List.filter_append, h]

theorem idCount_cons {K : Type} (p : K × Nat) (ns : List (K × Nat)) (i : Nat) :
    idCount (p :: ns) i = (if p.2 = i then 1 else 0) + idCount ns i := by
  by_cases h : p.2 = i <;> simp [idCount, h, Nat.add_comm]

theorem idCount_removeName_found {K : Type} [DecidableEq K] (ns : List (K × Nat))
    (k : K) (id : Nat) (h : findName ns k = some id) :
    idCount (removeName ns k) id + 1 = idCount ns id := by
  induction ns with
  | nil => exact absurd h (by simp [findName])
  | cons p rest ih =>
    rw [findName] at h
    by_cases hp : p.1 = k
    · rw [if_pos hp] at h
      have hid : p.2 = id := by simpa using h
      rw [removeName, if_pos hp, idCount_cons, if_pos hid]
      omega
    · rw [if_neg hp] at h
      have ihh := ih h
      rw [removeName, if_neg hp, idCount_cons, idCount_cons]
      by_cases h2 : p.2 = id
      · rw [if_pos h2]; omega
      · rw [if_neg h2]; omega

theorem idCount_removeName_other {K : Type} [DecidableEq K] (ns : List (K × Nat))
    (k : K) (id i : Nat) (h : findName ns k = some id) (hne : i ≠ id) :
    idCount (removeName ns k) i = idCount ns i := by
  induction ns with
  | nil => exact absurd h (by simp [findName])
  | cons p rest ih =>
    rw [findName] at h
    by_cases hp : p.1 = k
    · rw [if_pos hp] at h
      have hid : p.2 = id := by simpa using h
      have hpi : p.2 ≠ i := by
        intro hh
        exact hne (by rw [← hh]; exact hid)
      rw [removeName, if_pos hp, idCount_cons, if_neg hpi]
      omega
    · rw [if_neg hp] at h
      have ihh := ih h
      rw [removeName, if_neg hp, idCount_cons, idCount_cons, ihh]

theorem idCount_zero_of_bounds {K : Type} (ns : List (K × Nat)) (n : Nat)
    (h : ∀ p ∈ ns, p.2 < n) : idCount ns n = 0 := by
  induction ns with
  | nil => rfl
  | cons p rest ih =>
    have h1 : p.2 ≠ n := Nat.ne_of_lt (h p (List.mem_cons_self p rest))
    simp [idCount, h1]
    simpa [idCount] using ih (fun q hq => h q (List.mem_cons_of_mem p hq))

theorem guardCount_cons {K : Type} (g : Guard K) (gs : List (Guard K)) (id : Nat) :
    guardCount (g :: gs) id =
      (if g.entryId = id then 1 else 0) + guardCount gs id := by
  by_cases h : g.entryId = id <;> simp [guardCount, h, Nat.add_comm]

theorem guardCount_removeGuard_mem {K : Type} [DecidableEq K] (gs : List (Guard K))
    (g : Guard K) (h : g ∈ gs) :
    guardCount (removeGuard gs g) g.entryId + 1 = guardCount gs g.entryId := by
  induction gs with
  | nil => exact absurd h (by simp)
  | cons g' rest ih =>
    by_cases hg : g' = g
    · rw [removeGuard, if_pos hg]
      simp [guardCount, hg, Nat.add_comm]
    · rw [removeGuard, if_neg hg]
      have hmem : g ∈ rest := by
        rcases List.mem_cons.mp h with h1 | h1
        · exact absurd h1.symm hg
        · exact h1
      by_cases h2 : g'.entryId = g.entryId <;>
        simp [guardCount, h2] <;> simpa [guardCount] using ih hmem

theorem guardCount_removeGuard_other {K : Type} [DecidableEq K]
    (gs : List (Guard K)) (g : Guard K) (id : Nat) (h : id ≠ g.entryId) :
    guardCount (removeGuard gs g) id = guardCount gs id := by
  induction gs with
  | nil => rfl
  | cons g' rest ih =>
    by_cases hg : g' = g
    · rw [removeGuard, if_pos hg]
      have : g'.entryId ≠ id := by rw [hg]; exact fun hh => h hh.symm
      simp [guardCount, this]
    · rw [removeGuard, if_neg hg]
      by_cases h2 : g'.entryId = id <;> simp [guardCount, h2] <;>
        simpa [guardCount] using ih

theorem guardCount_zero_of_bounds {K : Type} (gs : List (Guard K)) (n : Nat)
    (h : ∀ g ∈ gs, g.entryId < n) : guardCount gs n = 0 := by
  induction gs with
  | nil => rfl
  | cons g rest ih =>
    have h1 : g.entryId ≠ n := Nat.ne_of_lt (h g (List.mem_cons_self g rest))
    simp [guardCount, h1]
    simpa [guardCount] using ih (fun q hq => h q (List.mem_cons_of_mem g hq))

theorem guardCount_pos_of_mem {K : Type} (gs : List (Guard K)) (g : Guard K)
    (h : g ∈ gs) : 0 < guardCount gs g.entryId := by
  induction gs with
  | nil => exact absurd h (by simp)
  | cons g' rest ih =>
    rcases List.mem_cons.mp h with h1 | h1
    · simp [guardCount, h1]
    · by_cases h2 : g'.entryId = g.entryId
      · simp [guardCount, h2]
      · simp [guardCount, h2]
        simpa [guardCount] using ih h1

theorem modifyAt_strong_self {V : Type} (l : List (Entry V)) (i : Nat) :
    modifyAt l i (fun e => { e with strong := e.strong }) = l := by
  rw [modifyAt_congr l i _ (fun a => a) (fun a => rfl), modifyAt_idfun]

/-! ### Branch characterizations of the embedded operations -/

/-- `lock` on an absent key: the initializer runs once, a fresh entry is
inserted, and the fresh (unpoisoned, unheld) mutex is acquired.  The new
allocation ends with strong count 3: the map's reference plus the two held
by the returned guard. -/
theorem lock_absent {K V : Type} [DecidableEq K] (s : Space K V) (k : K)
    (initial : Unit → V) (h : findName s.names k = none) :
    lock s k initial =
      { outcome := Outcome.ok ⟨k, s.heap.length⟩,
        space := ⟨s.heap ++ [⟨initial (), LockState.Locked, 3⟩],
                  s.names ++ [(k, s.heap.length)], s.cleanup⟩,
        trace := [Event.acquireOuter, Event.invokeInitial, Event.insertEntry k,
                  Event.cloneHandle s.heap.length, Event.cloneHandle s.heap.length,
                  Event.lockInner s.heap.length, Event.releaseOuter],
        initCalls := 1 } := by
  simp [lock, h, lockAcquire, modifyAt_append_length, heapGet_append_length]

/-- `lock` on a present key whose mutex is free: no initializer call, no map
change, the entry's strong count grows by 2 (the guard's two handles) and
its mutex is taken. -/
theorem lock_present_unlocked {K V : Type} [DecidableEq K] (s : Space K V)
    (k : K) (initial : Unit → V) (id : Nat) (e : Entry V)
    (h1 : findName s.names k = some id) (h2 : heapGet s.heap id = some e)
    (h3 : e.lockSt = LockState.Unlocked) :
    lock s k initial =
      { outcome := Outcome.ok ⟨k, id⟩,
        space := ⟨modifyAt s.heap id
                    (fun e' => ⟨e'.value, LockState.Locked, e'.strong + 1 + 1⟩),
                  s.names, s.cleanup⟩,
        trace := [Event.acquireOuter, Event.cloneHandle id, Event.cloneHandle id,
                  Event.lockInner id, Event.releaseOuter],
        initCalls := 0 } := by
  simp [lock, h1, lockAcquire, modifyAt_modifyAt, heapGet_modifyAt_self, h2, h3]

/-- `lock` on a present key whose mutex is poisoned: the call fails with a
poison error and the space is left exactly as it was. -/
theorem lock_present_poisoned {K V : Type} [DecidableEq K] (s : Space K V)
    (k : K) (initial : Unit → V) (id : Nat) (e : Entry V)
    (h1 : findName s.names k = some id) (h2 : heapGet s.heap id = some e)
    (h3 : e.lockSt = LockState.Poisoned) :
    lock s k initial =
      { outcome := Outcome.poisoned, space := s,
        trace := [Event.acquireOuter, Event.cloneHandle id, Event.cloneHandle id,
                  Event.lockInner id, Event.releaseHandle id, Event.releaseOuter,
                  Event.releaseHandle id],
        initCalls := 0 } := by
  have heta : modifyAt s.heap id (fun e' => { e' with strong := e'.strong }) = s.heap :=
    modifyAt_strong_self s.heap id
  simp [lock, h1, lockAcquire, modifyAt_modifyAt, heapGet_modifyAt_self, h2, h3, heta]

/-- `lock` on a present key whose mutex is currently held: the sequential
model reports that the call would block; the map is unchanged and the
in-flight attempt holds two extra references. -/
theorem lock_present_locked {K V : Type} [DecidableEq K] (s : Space K V)
    (k : K) (initial : Unit → V) (id : Nat) (e : Entry V)
    (h1 : findName s.names k = some id) (h2 : heapGet s.heap id = some e)
    (h3 : e.lockSt = LockState.Locked) :
    lock s k initial =
      { outcome := Outcome.blocked,
        space := ⟨modifyAt s.heap id
                    (fun e' => { e' with strong := e'.strong + 1 + 1 }),
                  s.names, s.cleanup⟩,
        trace := [Event.acquireOuter, Event.cloneHandle id, Event.cloneHandle id,
                  Event.lockInner id],
        initCalls := 0 } := by
  simp [lock, h1, lockAcquire, modifyAt_modifyAt, heapGet_modifyAt_self, h2, h3]

/-- `try_remove` on an absent key: `NotFound`, nothing touched. -/
theorem tryRemove_notfound {K V : Type} [DecidableEq K] (s : Space K V) (k : K)
    (h : findName s.names k = none) :
    tryRemove s k =
      { result := RemoveResult.NotFound, space := s,
        trace := [Event.acquireOuter, Event.releaseOuter] } := by
  simp [tryRemove, h]

/-- `try_remove` on an entry referenced by someone besides the table
(strong count above the baseline 1 before the probe's own clone):
`WouldBlock`, and the space is restored exactly. -/
theorem tryRemove_wouldblock_refcount {K V : Type} [DecidableEq K]
    (s : Space K V) (k : K) (id : Nat) (e : Entry V)
    (h1 : findName s.names k = some id) (h2 : heapGet s.heap id = some e)
    (h3 : 1 < e.strong) :
    tryRemove s k =
      { result := RemoveResult.WouldBlock, space := s,
        trace := [Event.acquireOuter, Event.cloneHandle id,
                  Event.releaseHandle id, Event.releaseOuter] } := by
  have hgate : 2 < e.strong + 1 := by omega
  have heta : modifyAt s.heap id (fun e' => { e' with strong := e'.strong }) = s.heap :=
    modifyAt_strong_self s.heap id
  simp [tryRemove, h1, tryRemoveInternal, heapGet_modifyAt_self, h2, hgate,
        modifyAt_modifyAt, heta]

/-- `try_remove` on an unreferenced entry whose mutex is nevertheless held:
the non-blocking probe fails, `WouldBlock`, space restored. -/
theorem tryRemove_wouldblock_locked {K V : Type} [DecidableEq K]
    (s : Space K V) (k : K) (id : Nat) (e : Entry V)
    (h1 : findName s.names k = some id) (h2 : heapGet s.heap id = some e)
    (h3 : e.strong ≤ 1) (h4 : e.lockSt = LockState.Locked) :
    tryRemove s k =
      { result := RemoveResult.WouldBlock, space := s,
        trace := [Event.acquireOuter, Event.cloneHandle id, Event.tryLockInner id,
                  Event.releaseHandle id, Event.releaseOuter] } := by
  have hgate : ¬ 2 < e.strong + 1 := by omega
  have heta : modifyAt s.heap id (fun e' => { e' with strong := e'.strong }) = s.heap :=
    modifyAt_strong_self s.heap id
  simp [tryRemove, h1, tryRemoveInternal, heapGet_modifyAt_self, h2, hgate, h4,
        modifyAt_modifyAt, heta]

/-- `try_remove` on an unreferenced entry whose mutex is poisoned:
`PoisonError`, and the entry is not removed. -/
theorem tryRemove_poisoned {K V : Type} [DecidableEq K]
    (s : Space K V) (k : K) (id : Nat) (e : Entry V)
    (h1 : findName s.names k = some id) (h2 : heapGet s.heap id = some e)
    (h3 : e.strong ≤ 1) (h4 : e.lockSt = LockState.Poisoned) :
    tryRemove s k =
      { result := RemoveResult.PoisonError, space := s,
        trace := [Event.acquireOuter, Event.cloneHandle id, Event.tryLockInner id,
                  Event.releaseHandle id, Event.releaseOuter] } := by
  have hgate : ¬ 2 < e.strong + 1 := by omega
  have heta : modifyAt s.heap id (fun e' => { e' with strong := e'.strong }) = s.heap :=
    modifyAt_strong_self s.heap id
  simp [tryRemove, h1, tryRemoveInternal, heapGet_modifyAt_self, h2, hgate, h4,
        modifyAt_modifyAt, heta]

/-- `try_remove` on an unreferenced entry whose mutex is free: the entry is
removed from the map and `Success` is returned. -/
theorem tryRemove_success {K V : Type} [DecidableEq K]
    (s : Space K V) (k : K) (id : Nat) (e : Entry V)
    (h1 : findName s.names k = some id) (h2 : heapGet s.heap id = some e)
    (h3 : e.strong ≤ 1) (h4 : e.lockSt = LockState.Unlocked) :
    tryRemove s k =
      { result := RemoveResult.Success,
        space := ⟨modifyAt s.heap id (fun e' => { e' with strong := e'.strong - 1 }),
                  removeName s.names k, s.cleanup⟩,
        trace := [Event.acquireOuter, Event.cloneHandle id, Event.tryLockInner id,
                  Event.unlockInner id, Event.removeKey k, Event.releaseHandle id,
                  Event.releaseHandle id, Event.releaseOuter] } := by
  have hgate : ¬ 2 < e.strong + 1 := by omega
  have hfun : modifyAt s.heap id (fun e' => { e' with strong := e'.strong + 1 - 1 - 1 }) =
      modifyAt s.heap id (fun e' => { e' with strong := e'.strong - 1 }) :=
    modifyAt_congr _ _ _ _ (fun a => by simp)
  simp [tryRemove, h1, tryRemoveInternal, heapGet_modifyAt_self, h2, hgate, h4,
        modifyAt_modifyAt, hfun]

/-- `LockSpaceGuard::drop` under `KeepUnused`: the inner lock is released,
the guard's two references are given back, and the map is untouched. -/
theorem guardDrop_keep {K V : Type} [DecidableEq K] (s : Space K V) (g : Guard K)
    (h : s.cleanup = Cleanup.KeepUnused) :
    guardDrop s g =
      { space := ⟨modifyAt s.heap g.entryId
                    (fun e => ⟨e.value, LockState.Unlocked, e.strong - 1 - 1⟩),
                  s.names, s.cleanup⟩,
        trace := [Event.unlockInner g.entryId, Event.releaseHandle g.entryId,
                  Event.acquireOuter, Event.releaseHandle g.entryId,
                  Event.releaseOuter] } := by
  simp [guardDrop, h, arcMutexGuardDrop, modifyAt_modifyAt]

/-- `LockSpaceGuard::drop` under `AutoCleanup` when other references remain
(entry strong count above 3, i.e. above the map's baseline plus this
guard's two): the embedded `try_remove_internal` declines and the map is
untouched. -/
theorem guardDrop_auto_wouldblock {K V : Type} [DecidableEq K] (s : Space K V)
    (g : Guard K) (e : Entry V) (h : s.cleanup = Cleanup.AutoCleanup)
    (h2 : heapGet s.heap g.entryId = some e) (h3 : 3 < e.strong) :
    guardDrop s g =
      { space := ⟨modifyAt s.heap g.entryId
                    (fun e' => ⟨e'.value, LockState.Unlocked, e'.strong - 1 - 1⟩),
                  s.names, s.cleanup⟩,
        trace := [Event.unlockInner g.entryId, Event.releaseHandle g.entryId,
                  Event.acquireOuter, Event.releaseHandle g.entryId,
                  Event.releaseOuter] } := by
  have hgate : 2 < e.strong - 1 := by omega
  simp [guardDrop, h, arcMutexGuardDrop, tryRemoveInternal, modifyAt_modifyAt,
        heapGet_modifyAt_self, h2, hgate]

/-- `LockSpaceGuard::drop` under `AutoCleanup` when this guard was the last
user (entry strong count exactly the map's 1 plus this guard's 2): the
entry is removed from the map. -/
theorem guardDrop_auto_removes {K V : Type} [DecidableEq K] (s : Space K V)
    (g : Guard K) (e : Entry V) (h : s.cleanup = Cleanup.AutoCleanup)
    (h2 : heapGet s.heap g.entryId = some e) (h3 : e.strong ≤ 3)
    (h4 : findName s.names g.key = some g.entryId) :
    guardDrop s g =
      { space := ⟨modifyAt s.heap g.entryId
                    (fun e' => ⟨e'.value, LockState.Unlocked, e'.strong - 1 - 1 - 1⟩),
                  removeName s.names g.key, s.cleanup⟩,
        trace := [Event.unlockInner g.entryId, Event.releaseHandle g.entryId,
                  Event.acquireOuter, Event.tryLockInner g.entryId,
                  Event.unlockInner g.entryId, Event.removeKey g.key,
                  Event.releaseHandle g.entryId, Event.releaseHandle g.entryId,
                  Event.releaseOuter] } := by
  have hgate : ¬ 2 < e.strong - 1 := by omega
  simp [guardDrop, h, arcMutexGuardDrop, tryRemoveInternal, modifyAt_modifyAt,
        heapGet_modifyAt_self, h2, hgate, h4]

theorem lt_length_of_heapGet_some {α : Type} (l : List α) (i : Nat) (a : α)
    (h : heapGet l i = some a) : i < l.length := by
  induction l generalizing i with
  | nil => cases h
  | cons b bs ih =>
    cases i with
    | zero => simp
    | succ n => simpa using ih n h

/-- Whatever the inner mutex's state, the shared acquisition tail of `lock`
never calls the initializer, never mutates the map, and a returned guard is
bound to the entry it was asked to acquire. -/
theorem lockAcquire_basic {K V : Type} (heap : List (Entry V))
    (names : List (K × Nat)) (cl : Cleanup) (k : K) (id : Nat)
    (tr : List (Event K)) (calls : Nat) :
    (lockAcquire heap names cl k id tr calls).initCalls = calls ∧
    (lockAcquire heap names cl k id tr calls).space.names = names ∧
    ∀ g, (lockAcquire heap names cl k id tr calls).outcome = Outcome.ok g →
      g.entryId = id := by
  rcases hE : heapGet (modifyAt (modifyAt heap id
      (fun e => { e with strong := e.strong + 1 })) id
      (fun e => { e with strong := e.strong + 1 })) id with _ | e
  · refine ⟨?_, ?_, ?_⟩ <;> simp [lockAcquire, hE]
  · rcases e with ⟨v, ls, n⟩
    cases ls with
    | Unlocked =>
        refine ⟨by simp [lockAcquire, hE], by simp [lockAcquire, hE], ?_⟩
        intro g hg
        simp [lockAcquire, hE] at hg
        rw [← hg]
    | Locked => refine ⟨?_, ?_, ?_⟩ <;> simp [lockAcquire, hE]
    | Poisoned => refine ⟨?_, ?_, ?_⟩ <;> simp [lockAcquire, hE]

/-- The acquisition tail's trace always extends its prefix with the two
handle clones followed by the blocking inner acquisition. -/
theorem lockAcquire_trace {K V : Type} (heap : List (Entry V))
    (names : List (K × Nat)) (cl : Cleanup) (k : K) (id : Nat)
    (tr : List (Event K)) (calls : Nat) :
    ∃ post, (lockAcquire heap names cl k id tr calls).trace =
      (tr ++ [Event.cloneHandle id, Event.cloneHandle id]) ++
        Event.lockInner id :: post := by
  rcases hE : heapGet (modifyAt (modifyAt heap id
      (fun e => { e with strong := e.strong + 1 })) id
      (fun e => { e with strong := e.strong + 1 })) id with _ | e
  · exact ⟨[], by simp [lockAcquire, hE]⟩
  · rcases e with ⟨v, ls, n⟩
    cases ls with
    | Unlocked => exact ⟨[Event.releaseOuter], by simp [lockAcquire, hE]⟩
    | Locked => exact ⟨[], by simp [lockAcquire, hE]⟩
    | Poisoned =>
        exact ⟨[Event.releaseHandle id, Event.releaseOuter, Event.releaseHandle id],
          by simp [lockAcquire, hE]⟩

/-- Every event `try_remove_internal` emits is a non-blocking probe, a
transient unlock, the map removal, or a handle release. -/
theorem tryRemoveInternal_trace_events {K V : Type} [DecidableEq K]
    (heap : List (Entry V)) (names : List (K × Nat)) (tkey : K) (tid : Nat)
    (e : Event K) (he : e ∈ (tryRemoveInternal heap names tkey tid).trace) :
    e = Event.tryLockInner tid ∨ e = Event.unlockInner tid ∨
    e = Event.removeKey tkey ∨ ∃ m, e = Event.releaseHandle m := by
  rcases hE : heapGet heap tid with _ | ent
  · simp [tryRemoveInternal, hE] at he
  · rcases ent with ⟨v, ls, n⟩
    by_cases hgt : n > 2
    · simp [tryRemoveInternal, hE, hgt] at he
      exact Or.inr (Or.inr (Or.inr ⟨tid, he⟩))
    · cases ls with
      | Unlocked =>
          rcases hfn : findName names tkey with _ | mid
          · simp [tryRemoveInternal, hE, hgt, hfn] at he
            rcases he with rfl | rfl | rfl
            · exact Or.inl rfl
            · exact Or.inr (Or.inl rfl)
            · exact Or.inr (Or.inr (Or.inr ⟨tid, rfl⟩))
          · simp [tryRemoveInternal, hE, hgt, hfn] at he
            rcases he with rfl | rfl | rfl | rfl | rfl
            · exact Or.inl rfl
            · exact Or.inr (Or.inl rfl)
            · exact Or.inr (Or.inr (Or.inl rfl))
            · exact Or.inr (Or.inr (Or.inr ⟨mid, rfl⟩))
            · exact Or.inr (Or.inr (Or.inr ⟨tid, rfl⟩))
      | Locked =>
          simp [tryRemoveInternal, hE, hgt] at he
          rcases he with rfl | rfl
          · exact Or.inl rfl
          · exact Or.inr (Or.inr (Or.inr ⟨tid, rfl⟩))
      | Poisoned =>
          simp [tryRemoveInternal, hE, hgt] at he
          rcases he with rfl | rfl
          · exact Or.inl rfl
          · exact Or.inr (Or.inr (Or.inr ⟨tid, rfl⟩))

/-- The trace of every guard drop begins with the inner unlock. -/
theorem guardDrop_trace_head {K V : Type} [DecidableEq K] (s : Space K V)
    (g : Guard K) :
    ∃ rest, (guardDrop s g).trace = Event.unlockInner g.entryId :: rest := by
  cases hc : s.cleanup with
  | AutoCleanup =>
      refine ⟨[Event.releaseHandle g.entryId, Event.acquireOuter] ++
        (tryRemoveInternal (arcMutexGuardDrop (K := K) s.heap g.entryId).1 s.names
          g.key g.entryId).trace ++ [Event.releaseOuter], ?_⟩
      simp [guardDrop, hc, arcMutexGuardDrop]
  | KeepUnused =>
      refine ⟨[Event.releaseHandle g.entryId, Event.acquireOuter,
        Event.releaseHandle g.entryId, Event.releaseOuter], ?_⟩
      simp [guardDrop, hc, arcMutexGuardDrop]

/-- The trace of a guard drop never contains an `intoInner` event: the
table's cleanup path does not go through `OwnedMutexGuard::into_inner`. -/
theorem guardDrop_no_intoInner {K V : Type} [DecidableEq K] (s : Space K V)
    (g : Guard K) (n : Nat) : Event.intoInner n ∉ (guardDrop s g).trace := by
  intro hmem
  cases hc : s.cleanup with
  | AutoCleanup =>
      simp [guardDrop, hc, arcMutexGuardDrop] at hmem
      rcases tryRemoveInternal_trace_events _ _ _ _ _ hmem with h1 | h1 | h1 | ⟨m, h1⟩ <;>
        cases h1
  | KeepUnused =>
      simp [guardDrop, hc, arcMutexGuardDrop] at hmem

/-! ### The claims -/

/-- C1: for every call to `lock(key, initial)`: if the map has no entry for
`key`, `initial` is invoked exactly once and a new entry for `key` is
inserted into the map before any lock acquisition on it, the entire
lookup-or-insert step happening between the outer acquisition and the outer
release; if the map already has an entry for `key`, `initial` is never
invoked, the map is unchanged, and the existing entry is the one a returned
guard uses. -/
theorem C1_lock_lookup_or_insert {K V : Type} [DecidableEq K] (s : Space K V)
    (k : K) (initial : Unit → V) :
    (findName s.names k = none →
      (lock s k initial).initCalls = 1 ∧
      findName (lock s k initial).space.names k = some s.heap.length ∧
      precedes (lock s k initial).trace (Event.insertEntry k)
        (Event.lockInner s.heap.length) ∧
      precedes (lock s k initial).trace Event.acquireOuter (Event.insertEntry k) ∧
      precedes (lock s k initial).trace (Event.insertEntry k) Event.releaseOuter) ∧
    (∀ id, findName s.names k = some id →
      (lock s k initial).initCalls = 0 ∧
      (lock s k initial).space.names = s.names ∧
      ∀ g, (lock s k initial).outcome = Outcome.ok g → g.entryId = id) := by
  constructor
  · intro h
    rw [lock_absent s k initial h]
    refine ⟨rfl, findName_append_absent s.names k s.heap.length h, ?_, ?_, ?_⟩
    · exact ⟨⟨2, by simp⟩, ⟨5, by simp⟩, by simp, rfl, rfl⟩
    · exact ⟨⟨0, by simp⟩, ⟨2, by simp⟩, by simp, rfl, rfl⟩
    · exact ⟨⟨2, by simp⟩, ⟨6, by simp⟩, by simp, rfl, rfl⟩
  · intro id h
    have hb := lockAcquire_basic s.heap s.names s.cleanup k id [Event.acquireOuter] 0
    have hl : lock s k initial =
        lockAcquire s.heap s.names s.cleanup k id [Event.acquireOuter] 0 := by
      simp [lock, h]
    rw [hl]
    exact hb

/-- C1 witness: at the empty space, locking key 0 invokes the initializer
once and inserts the entry; re-locking it invokes the initializer zero more
times. -/
theorem C1_witness :
    (lock (⟨[], [], Cleanup.KeepUnused⟩ : Space Nat Nat) 0 (fun _ => 7)).initCalls = 1 ∧
    findName (lock (⟨[], [], Cleanup.KeepUnused⟩ : Space Nat Nat) 0
      (fun _ => 7)).space.names 0 = some 0 ∧
    (lock (⟨[⟨7, LockState.Unlocked, 1⟩], [(0, 0)], Cleanup.KeepUnused⟩ : Space Nat Nat) 0
      (fun _ => 7)).initCalls = 0 := by
  refine ⟨?_, ?_, ?_⟩
  · exact ((C1_lock_lookup_or_insert (⟨[], [], Cleanup.KeepUnused⟩ : Space Nat Nat) 0
      (fun _ => 7)).1 rfl).1
  · exact ((C1_lock_lookup_or_insert (⟨[], [], Cleanup.KeepUnused⟩ : Space Nat Nat) 0
      (fun _ => 7)).1 rfl).2.1
  · exact (((C1_lock_lookup_or_insert
      (⟨[⟨7, LockState.Unlocked, 1⟩], [(0, 0)], Cleanup.KeepUnused⟩ : Space Nat Nat) 0
      (fun _ => 7)).2 0) rfl).1

/-- C2: `try_remove(key)` returns `NotFound` on an absent key with the space
unchanged; `WouldBlock` with the space unchanged when the entry is
referenced by anyone besides the table or its inner lock is held;
`PoisonError` without removal when the inner lock is poisoned; and otherwise
removes the entry and returns `Success`. -/
theorem C2_tryRemove_cases {K V : Type} [DecidableEq K] (s : Space K V) (k : K) :
    (findName s.names k = none →
      (tryRemove s k).result = RemoveResult.NotFound ∧ (tryRemove s k).space = s) ∧
    (∀ id e, findName s.names k = some id → heapGet s.heap id = some e →
      (1 < e.strong →
        (tryRemove s k).result = RemoveResult.WouldBlock ∧ (tryRemove s k).space = s) ∧
      (e.strong ≤ 1 → e.lockSt = LockState.Locked →
        (tryRemove s k).result = RemoveResult.WouldBlock ∧ (tryRemove s k).space = s) ∧
      (e.strong ≤ 1 → e.lockSt = LockState.Poisoned →
        (tryRemove s k).result = RemoveResult.PoisonError ∧ (tryRemove s k).space = s) ∧
      (e.strong ≤ 1 → e.lockSt = LockState.Unlocked →
        (tryRemove s k).result = RemoveResult.Success ∧
        (tryRemove s k).space.names = removeName s.names k ∧
        ((s.names.map Prod.fst).Nodup →
          findName (tryRemove s k).space.names k = none))) := by
  constructor
  · intro h
    rw [tryRemove_notfound s k h]
    exact ⟨rfl, rfl⟩
  · intro id e h1 h2
    refine ⟨?_, ?_, ?_, ?_⟩
    · intro h3
      rw [tryRemove_wouldblock_refcount s k id e h1 h2 h3]
      exact ⟨rfl, rfl⟩
    · intro h3 h4
      rw [tryRemove_wouldblock_locked s k id e h1 h2 h3 h4]
      exact ⟨rfl, rfl⟩
    · intro h3 h4
      rw [tryRemove_poisoned s k id e h1 h2 h3 h4]
      exact ⟨rfl, rfl⟩
    · intro h3 h4
      rw [tryRemove_success s k id e h1 h2 h3 h4]
      exact ⟨rfl, rfl, fun hnd => findName_removeName_self s.names k hnd⟩

/-- C2 witness: removing an absent key reports `NotFound`; removing an
unreferenced unlocked entry succeeds and leaves the key absent. -/
theorem C2_witness :
    (tryRemove (⟨[], [], Cleanup.KeepUnused⟩ : Space Nat Nat) 3).result =
      RemoveResult.NotFound ∧
    (tryRemove (⟨[⟨5, LockState.Unlocked, 1⟩], [(0, 0)], Cleanup.KeepUnused⟩ : Space Nat Nat)
      0).result = RemoveResult.Success ∧
    findName (tryRemove (⟨[⟨5, LockState.Unlocked, 1⟩], [(0, 0)],
      Cleanup.KeepUnused⟩ : Space Nat Nat) 0).space.names 0 = none := by
  refine ⟨?_, ?_, ?_⟩
  · exact ((C2_tryRemove_cases (⟨[], [], Cleanup.KeepUnused⟩ : Space Nat Nat) 3).1 rfl).1
  · exact (((C2_tryRemove_cases
      (⟨[⟨5, LockState.Unlocked, 1⟩], [(0, 0)], Cleanup.KeepUnused⟩ : Space Nat Nat) 0).2
      0 ⟨5, LockState.Unlocked, 1⟩ rfl rfl).2.2.2 (by decide) rfl).1
  · exact (((C2_tryRemove_cases
      (⟨[⟨5, LockState.Unlocked, 1⟩], [(0, 0)], Cleanup.KeepUnused⟩ : Space Nat Nat) 0).2
      0 ⟨5, LockState.Unlocked, 1⟩ rfl rfl).2.2.2 (by decide) rfl).2.2 (by decide)

/-- C3: under `KeepUnused` a guard drop removes nothing from the map; under
`AutoCleanup` a guard drop runs the `try_remove_internal` equivalent, so the
entry whose last guard is released (strong count 3 = map + this guard's two
handles) is removed from the map. -/
theorem C3_cleanup_policy {K V : Type} [DecidableEq K] (s : Space K V)
    (g : Guard K) :
    (s.cleanup = Cleanup.KeepUnused → (guardDrop s g).space.names = s.names) ∧
    (∀ e, s.cleanup = Cleanup.AutoCleanup → heapGet s.heap g.entryId = some e →
      e.strong = 3 → findName s.names g.key = some g.entryId →
      (guardDrop s g).space.names = removeName s.names g.key ∧
      ((s.names.map Prod.fst).Nodup →
        findName (guardDrop s g).space.names g.key = none)) := by
  constructor
  · intro h
    rw [guardDrop_keep s g h]
  · intro e h h2 h3 h4
    rw [guardDrop_auto_removes s g e h h2 (by omega) h4]
    exact ⟨rfl, fun hnd => findName_removeName_self s.names g.key hnd⟩

/-- C3 witness: dropping the last guard keeps the entry under `KeepUnused`
and removes it under `AutoCleanup`. -/
theorem C3_witness :
    (guardDrop (⟨[⟨7, LockState.Locked, 3⟩], [(0, 0)], Cleanup.KeepUnused⟩ : Space Nat Nat)
      ⟨0, 0⟩).space.names = [(0, 0)] ∧
    (guardDrop (⟨[⟨7, LockState.Locked, 3⟩], [(0, 0)], Cleanup.AutoCleanup⟩ : Space Nat Nat)
      ⟨0, 0⟩).space.names = [] := by
  constructor
  · exact (C3_cleanup_policy (⟨[⟨7, LockState.Locked, 3⟩], [(0, 0)],
      Cleanup.KeepUnused⟩ : Space Nat Nat) ⟨0, 0⟩).1 rfl
  · exact (((C3_cleanup_policy (⟨[⟨7, LockState.Locked, 3⟩], [(0, 0)],
      Cleanup.AutoCleanup⟩ : Space Nat Nat) ⟨0, 0⟩).2 ⟨7, LockState.Locked, 3⟩
      rfl rfl rfl rfl).1).trans (by decide)

/-- C4: if the inner mutex of an existing entry for a key is poisoned, then
`lock(key, initial)` fails with a poison error leaving the space (including
the poisoned state) exactly as it was, and `with_lock(key, initial, body)`
fails the same way without ever invoking `body`. -/
theorem C4_poison_propagation {K V R : Type} [DecidableEq K] (s : Space K V)
    (k : K) (initial : Unit → V) (f : V → R × V) (id : Nat) (e : Entry V)
    (h1 : findName s.names k = some id) (h2 : heapGet s.heap id = some e)
    (h3 : e.lockSt = LockState.Poisoned) :
    (lock s k initial).outcome = Outcome.poisoned ∧
    (lock s k initial).space = s ∧
    (withLock s k initial f).outcome = WOutcome.poisoned ∧
    (withLock s k initial f).fCalls = 0 ∧
    (withLock s k initial f).space = s := by
  have hl := lock_present_poisoned s k initial id e h1 h2 h3
  refine ⟨by rw [hl], by rw [hl], ?_, ?_, ?_⟩ <;> simp [withLock, hl]

/-- C4 witness: a poisoned entry for key 0 makes both `lock` and `with_lock`
fail with a poison error, the body never runs, and the space is unchanged. -/
theorem C4_witness :
    (lock (⟨[⟨5, LockState.Poisoned, 1⟩], [(0, 0)], Cleanup.KeepUnused⟩ : Space Nat Nat) 0
      (fun _ => 7)).outcome = Outcome.poisoned ∧
    (withLock (⟨[⟨5, LockState.Poisoned, 1⟩], [(0, 0)], Cleanup.KeepUnused⟩ : Space Nat Nat) 0
      (fun _ => 7) (fun v => (v, v + 1))).fCalls = 0 ∧
    (withLock (⟨[⟨5, LockState.Poisoned, 1⟩], [(0, 0)], Cleanup.KeepUnused⟩ : Space Nat Nat) 0
      (fun _ => 7) (fun v => (v, v + 1))).space =
      ⟨[⟨5, LockState.Poisoned, 1⟩], [(0, 0)], Cleanup.KeepUnused⟩ := by
  have h := C4_poison_propagation
    (⟨[⟨5, LockState.Poisoned, 1⟩], [(0, 0)], Cleanup.KeepUnused⟩ : Space Nat Nat) 0
    (fun _ => 7) (fun v => (v, v + 1)) 0 ⟨5, LockState.Poisoned, 1⟩ rfl rfl rfl
  exact ⟨h.1, h.2.2.2.1, h.2.2.2.2⟩

theorem mem_of_findName_some {K : Type} [DecidableEq K] (ns : List (K × Nat))
    (k : K) (id : Nat) (h : findName ns k = some id) : (k, id) ∈ ns := by
  induction ns with
  | nil => cases h
  | cons p rest ih =>
    rw [findName] at h
    by_cases hp : p.1 = k
    · rw [if_pos hp] at h
      injection h with h2
      have hpk : p = (k, id) := Prod.ext hp h2
      rw [← hpk]
      exact List.mem_cons_self p rest
    · rw [if_neg hp] at h
      exact List.mem_cons_of_mem p (ih h)

/-- C5 counterexample: starting from the empty space, one completed `lock`
call leaves exactly one live guard and no in-flight attempt, yet the
entry's strong count measured under the outer lock is 3, not 1 + 1 + 0: a
live guard holds TWO references (the cloned map entry and the `Arc` inside
its `ArcMutexGuard`), so the claimed identity strong = 1 + guards +
in-flight fails at this input. -/
theorem C5_counterexample :
    (worldLock (⟨⟨[], [], Cleanup.KeepUnused⟩, []⟩ : World Nat Nat) 0
      (fun _ => 7)).1.guards.length = 1 ∧
    heapGet (worldLock (⟨⟨[], [], Cleanup.KeepUnused⟩, []⟩ : World Nat Nat) 0
      (fun _ => 7)).1.space.heap 0 = some ⟨7, LockState.Locked, 3⟩ ∧
    (3 : Nat) ≠ 1 + 1 + 0 := by
  refine ⟨rfl, rfl, by decide⟩

/-- C5 amended: each live guard holds two strong references, so the
invariant the code maintains is: an entry's strong count, measured while
the outer lock is held in a quiescent configuration, equals the number of
map entries pointing at it (1 for a live key) plus 2 per live guard.  This
is preserved by every completed `lock` call and every guard drop, and the
removal logic of `try_remove` treats an entry as unused exactly when
nothing besides the table (and its own probe clone) references it: any live
guard forces `WouldBlock`, and with no guard and a free mutex the entry is
removed. -/
theorem C5_refcount_amended {K V : Type} [DecidableEq K] (w : World K V) (k : K)
    (initial : Unit → V) (g : Guard K) :
    (refInvariant w → idsInBounds w →
      ∀ w' o, worldLock w k initial = (w', o) → o ≠ Outcome.blocked →
        refInvariant w') ∧
    (refInvariant w → g ∈ w.guards →
      findName w.space.names g.key = some g.entryId →
      idCount w.space.names g.entryId = 1 →
      g.entryId < w.space.heap.length →
      refInvariant (worldGuardDrop w g)) ∧
    (∀ id e, refInvariant w → findName w.space.names k = some id →
      heapGet w.space.heap id = some e → idCount w.space.names id = 1 →
      ((1 ≤ guardCount w.guards id →
        (tryRemove w.space k).result = RemoveResult.WouldBlock) ∧
       (guardCount w.guards id = 0 → e.lockSt = LockState.Unlocked →
        (tryRemove w.space k).result = RemoveResult.Success))) := by
  refine ⟨?_, ?_, ?_⟩
  · intro hInv hIB w' o heq hob
    rcases hfn : findName w.space.names k with _ | id0
    · have hl := lock_absent w.space k initial hfn
      simp only [worldLock, hl] at heq
      cases heq
      intro id e hg
      have hlen : id < w.space.heap.length + 1 := by
        have := lt_length_of_heapGet_some _ _ _ hg
        simpa using this
      by_cases hid : id = w.space.heap.length
      · subst hid
        rw [heapGet_append_length] at hg
        injection hg with hg
        subst hg
        have h1 : idCount w.space.names w.space.heap.length = 0 :=
          idCount_zero_of_bounds _ _ hIB.1
        have h2 : guardCount w.guards w.space.heap.length = 0 :=
          guardCount_zero_of_bounds _ _ hIB.2
        simp [idCount_append_single, guardCount_cons, h1, h2]
      · have hlt : id < w.space.heap.length := by omega
        rw [heapGet_append_lt _ _ _ hlt] at hg
        have hbase := hInv id e hg
        have hne : w.space.heap.length ≠ id := fun hh => hid hh.symm
        rw [idCount_append_single, guardCount_cons]
        simp only [hne, if_false]
        simpa using hbase
    · have hmemn := mem_of_findName_some w.space.names k id0 hfn
      have hlt0 : id0 < w.space.heap.length := hIB.1 (k, id0) hmemn
      obtain ⟨e0, he0⟩ := heapGet_some_of_lt _ _ hlt0
      rcases e0 with ⟨v0, ls0, n0⟩
      cases ls0 with
      | Unlocked =>
          have hl := lock_present_unlocked w.space k initial id0
            ⟨v0, LockState.Unlocked, n0⟩ hfn he0 rfl
          simp only [worldLock, hl] at heq
          cases heq
          intro id e hg
          by_cases hid : id = id0
          · subst hid
            rw [heapGet_modifyAt_self, he0] at hg
            injection hg with hg
            subst hg
            have hbase := hInv id ⟨v0, LockState.Unlocked, n0⟩ he0
            have hgcons : guardCount ((⟨k, id⟩ : Guard K) :: w.guards) id =
                1 + guardCount w.guards id := by
              rw [guardCount_cons]
              simp
            rw [hgcons]
            dsimp only at hbase ⊢
            omega
          · rw [heapGet_modifyAt_other _ _ _ _ hid] at hg
            have hbase := hInv id e hg
            have hgcons : guardCount ((⟨k, id0⟩ : Guard K) :: w.guards) id =
                guardCount w.guards id := by
              rw [guardCount_cons,
                if_neg (show ¬((⟨k, id0⟩ : Guard K).entryId = id) from
                  fun hh => hid hh.symm)]
              omega
            rw [hgcons]
            exact hbase
      | Locked =>
          have hl := lock_present_locked w.space k initial id0
            ⟨v0, LockState.Locked, n0⟩ hfn he0 rfl
          simp only [worldLock, hl] at heq
          cases heq
          exact absurd rfl hob
      | Poisoned =>
          have hl := lock_present_poisoned w.space k initial id0
            ⟨v0, LockState.Poisoned, n0⟩ hfn he0 rfl
          simp only [worldLock, hl] at heq
          cases heq
          exact hInv
  · intro hInv hmem hfk hic hlt
    obtain ⟨e, he⟩ := heapGet_some_of_lt _ _ hlt
    have hstrong := hInv g.entryId e he
    have hgpos := guardCount_pos_of_mem w.guards g hmem
    have hgd : (worldGuardDrop w g).guards = removeGuard w.guards g := rfl
    cases hcl : w.space.cleanup with
    | KeepUnused =>
        have hd := guardDrop_keep w.space g hcl
        have hsp : (worldGuardDrop w g).space =
            ⟨modifyAt w.space.heap g.entryId
              (fun e'' => ⟨e''.value, LockState.Unlocked, e''.strong - 1 - 1⟩),
             w.space.names, w.space.cleanup⟩ := by
          simp [worldGuardDrop, hd]
        intro id e' hg'
        rw [hsp] at hg'
        rw [hsp, hgd]
        by_cases hid : id = g.entryId
        · subst hid
          rw [heapGet_modifyAt_self, he] at hg'
          injection hg' with hg'
          subst hg'
          have hrem := guardCount_removeGuard_mem w.guards g hmem
          dsimp only at hstrong ⊢
          omega
        · rw [heapGet_modifyAt_other _ _ _ _ hid] at hg'
          have hbase := hInv id e' hg'
          rw [guardCount_removeGuard_other _ _ _ hid]
          exact hbase
    | AutoCleanup =>
        by_cases hgc2 : 2 ≤ guardCount w.guards g.entryId
        · have h3 : 3 < e.strong := by omega
          have hd := guardDrop_auto_wouldblock w.space g e hcl he h3
          have hsp : (worldGuardDrop w g).space =
              ⟨modifyAt w.space.heap g.entryId
                (fun e'' => ⟨e''.value, LockState.Unlocked, e''.strong - 1 - 1⟩),
               w.space.names, w.space.cleanup⟩ := by
            simp [worldGuardDrop, hd]
          intro id e' hg'
          rw [hsp] at hg'
          rw [hsp, hgd]
          by_cases hid : id = g.entryId
          · subst hid
            rw [heapGet_modifyAt_self, he] at hg'
            injection hg' with hg'
            subst hg'
            have hrem := guardCount_removeGuard_mem w.guards g hmem
            dsimp only at hstrong ⊢
            omega
          · rw [heapGet_modifyAt_other _ _ _ _ hid] at hg'
            have hbase := hInv id e' hg'
            rw [guardCount_removeGuard_other _ _ _ hid]
            exact hbase
        · have h3 : e.strong ≤ 3 := by omega
          have hd := guardDrop_auto_removes w.space g e hcl he h3 hfk
          have hsp : (worldGuardDrop w g).space =
              ⟨modifyAt w.space.heap g.entryId
                (fun e'' => ⟨e''.value, LockState.Unlocked, e''.strong - 1 - 1 - 1⟩),
               removeName w.space.names g.key, w.space.cleanup⟩ := by
            simp [worldGuardDrop, hd]
          intro id e' hg'
          rw [hsp] at hg'
          rw [hsp, hgd]
          by_cases hid : id = g.entryId
          · subst hid
            rw [heapGet_modifyAt_self, he] at hg'
            injection hg' with hg'
            subst hg'
            have hremG := guardCount_removeGuard_mem w.guards g hmem
            have hremN := idCount_removeName_found w.space.names g.key g.entryId hfk
            dsimp only at hstrong ⊢
            omega
          · rw [heapGet_modifyAt_other _ _ _ _ hid] at hg'
            have hbase := hInv id e' hg'
            rw [guardCount_removeGuard_other _ _ _ hid,
                idCount_removeName_other w.space.names g.key g.entryId id hfk hid]
            exact hbase
  · intro id e hInv hfn hge hic
    have hstrong := hInv id e hge
    constructor
    · intro hgc
      have h1 : 1 < e.strong := by omega
      rw [tryRemove_wouldblock_refcount w.space k id e hfn hge h1]
    · intro hgc hlst
      have h1 : e.strong ≤ 1 := by omega
      rw [tryRemove_success w.space k id e hfn hge h1 hlst]

/-- C5 witness: a concrete quiescent configuration with one live guard
satisfies the invariant, and it is preserved when that guard is dropped. -/
theorem C5_witness :
    refInvariant (worldGuardDrop
      (⟨⟨[⟨7, LockState.Locked, 3⟩], [(0, 0)], Cleanup.KeepUnused⟩, [⟨0, 0⟩]⟩ : World Nat Nat)
      ⟨0, 0⟩) := by
  have hinv : refInvariant
      (⟨⟨[⟨7, LockState.Locked, 3⟩], [(0, 0)], Cleanup.KeepUnused⟩,
        [⟨0, 0⟩]⟩ : World Nat Nat) := by
    intro id e hg
    cases id with
    | zero =>
        injection hg with hg
        subst hg
        decide
    | succ n => cases hg
  exact (C5_refcount_amended
    (⟨⟨[⟨7, LockState.Locked, 3⟩], [(0, 0)], Cleanup.KeepUnused⟩,
      [⟨0, 0⟩]⟩ : World Nat Nat) 0 (fun _ => 7) ⟨0, 0⟩).2.1 hinv (by decide) rfl
    (by decide) (by decide)

/-- C6 counterexample: on the concrete empty space, `lock` acquires the
inner mutex strictly BEFORE releasing the outer map lock (the claim states
the opposite order: release outer, then block on the inner). -/
theorem C6_counterexample :
    precedes (lock (⟨[], [], Cleanup.KeepUnused⟩ : Space Nat Nat) 0 (fun _ => 7)).trace
      (Event.lockInner 0) Event.releaseOuter ∧
    ¬ precedes (lock (⟨[], [], Cleanup.KeepUnused⟩ : Space Nat Nat) 0 (fun _ => 7)).trace
      Event.releaseOuter (Event.lockInner 0) := by
  constructor
  · decide
  · decide

/-- C6 amended: after the lookup-or-insert step, `lock` clones the entry's
shared handle and then blocks to acquire the entry's inner mutex while
still holding the outer map lock; the outer lock is released only after the
inner acquisition.  In every `lock` trace the inner acquisition is preceded
by the outer acquisition and the handle clone, and no outer release occurs
before it. -/
theorem C6_lock_order_amended {K V : Type} [DecidableEq K] (s : Space K V)
    (k : K) (initial : Unit → V) :
    ∃ id pre post,
      (lock s k initial).trace = pre ++ Event.lockInner id :: post ∧
      Event.acquireOuter ∈ pre ∧ Event.cloneHandle id ∈ pre ∧
      Event.releaseOuter ∉ pre := by
  rcases hfn : findName s.names k with _ | id
  · obtain ⟨post, hp⟩ := lockAcquire_trace
      (s.heap ++ [⟨initial (), LockState.Unlocked, 1⟩])
      (s.names ++ [(k, s.heap.length)]) s.cleanup k s.heap.length
      [Event.acquireOuter, Event.invokeInitial, Event.insertEntry k] 1
    have hl : lock s k initial =
        lockAcquire (s.heap ++ [⟨initial (), LockState.Unlocked, 1⟩])
          (s.names ++ [(k, s.heap.length)]) s.cleanup k s.heap.length
          [Event.acquireOuter, Event.invokeInitial, Event.insertEntry k] 1 := by
      simp [lock, hfn]
    refine ⟨s.heap.length,
      [Event.acquireOuter, Event.invokeInitial, Event.insertEntry k] ++
        [Event.cloneHandle s.heap.length, Event.cloneHandle s.heap.length], post,
      ?_, by simp, by simp, by simp⟩
    rw [hl, hp]
  · obtain ⟨post, hp⟩ := lockAcquire_trace s.heap s.names s.cleanup k id
      [Event.acquireOuter] 0
    have hl : lock s k initial =
        lockAcquire s.heap s.names s.cleanup k id [Event.acquireOuter] 0 := by
      simp [lock, hfn]
    refine ⟨id, [Event.acquireOuter] ++ [Event.cloneHandle id, Event.cloneHandle id],
      post, ?_, by simp, by simp, by simp⟩
    rw [hl, hp]

/-- C7: when a guard is dropped the inner mutex lock is released strictly
before any of the guard's strong handles: the very first event of every
drop trace is the inner unlock, and every handle release occurs at a
strictly later position. -/
theorem C7_release_order {K V : Type} [DecidableEq K] (s : Space K V)
    (g : Guard K) :
    (guardDrop s g).trace.get? 0 = some (Event.unlockInner g.entryId) ∧
    ∀ j m, (guardDrop s g).trace.get? j = some (Event.releaseHandle m) → 0 < j := by
  obtain ⟨rest, hr⟩ := guardDrop_trace_head s g
  rw [hr]
  refine ⟨rfl, ?_⟩
  intro j m hj
  cases j with
  | zero => simp at hj
  | succ n => exact Nat.succ_pos n

/-- C7 witness: for a concrete drop, the unlock is the first event and the
handle release at position 1 is indeed strictly later. -/
theorem C7_witness :
    (guardDrop (⟨[⟨7, LockState.Locked, 3⟩], [(0, 0)], Cleanup.KeepUnused⟩ : Space Nat Nat)
      ⟨0, 0⟩).trace.get? 0 = some (Event.unlockInner 0) ∧ (0 : Nat) < 1 := by
  have h := C7_release_order
    (⟨[⟨7, LockState.Locked, 3⟩], [(0, 0)], Cleanup.KeepUnused⟩ : Space Nat Nat) ⟨0, 0⟩
  exact ⟨h.1, h.2 1 0 (by decide)⟩

/-- C8: `try_remove` never waits on a per-entry inner lock: the only
blocking event of its trace is the outer acquisition (inner probes are
non-blocking `try_lock`s), and a held inner lock yields `WouldBlock`. -/
theorem C8_tryRemove_nonblocking {K V : Type} [DecidableEq K] (s : Space K V)
    (k : K) :
    (∀ e ∈ (tryRemove s k).trace, blocking e = true → e = Event.acquireOuter) ∧
    (∀ id ent, findName s.names k = some id → heapGet s.heap id = some ent →
      ent.strong ≤ 1 → ent.lockSt = LockState.Locked →
      (tryRemove s k).result = RemoveResult.WouldBlock) := by
  constructor
  · rcases hfn : findName s.names k with _ | id
    · rw [tryRemove_notfound s k hfn]
      intro e he hb
      simp at he
      rcases he with rfl | rfl
      · rfl
      · simp [blocking] at hb
    · intro e he hb
      have htr : (tryRemove s k).trace =
          [Event.acquireOuter, Event.cloneHandle id] ++
          (tryRemoveInternal (modifyAt s.heap id
            (fun e' => { e' with strong := e'.strong + 1 })) s.names k id).trace ++
          [Event.releaseOuter] := by
        simp [tryRemove, hfn]
      rw [htr] at he
      simp at he
      rcases he with rfl | rfl | hm | rfl
      · rfl
      · simp [blocking] at hb
      · rcases tryRemoveInternal_trace_events _ _ _ _ _ hm with h1 | h1 | h1 | ⟨m, h1⟩ <;>
          subst h1 <;> simp [blocking] at hb
      · simp [blocking] at hb
  · intro id ent h1 h2 h3 h4
    rw [tryRemove_wouldblock_locked s k id ent h1 h2 h3 h4]

/-- C8 witness: on an entry whose inner lock is held, `try_remove` reports
`WouldBlock`, and the one blocking event of the trace is the outer
acquisition. -/
theorem C8_witness :
    (tryRemove (⟨[⟨5, LockState.Locked, 1⟩], [(0, 0)], Cleanup.KeepUnused⟩ : Space Nat Nat)
      0).result = RemoveResult.WouldBlock ∧
    Event.acquireOuter = (Event.acquireOuter : Event Nat) := by
  have h := C8_tryRemove_nonblocking
    (⟨[⟨5, LockState.Locked, 1⟩], [(0, 0)], Cleanup.KeepUnused⟩ : Space Nat Nat) 0
  exact ⟨h.2 0 ⟨5, LockState.Locked, 1⟩ rfl rfl (by decide) rfl,
    h.1 Event.acquireOuter (by decide) rfl⟩

/-- C9 counterexample: the table's cleanup path (`LockSpaceGuard::drop`
under `AutoCleanup`, at a concrete configuration) performs no `into_inner`
operation: its trace contains no `intoInner` event, refuting the claim that
`into_inner` is what the cleanup path uses. -/
theorem C9_counterexample :
    Event.intoInner 0 ∉
      (guardDrop (⟨[⟨7, LockState.Locked, 3⟩], [(0, 0)], Cleanup.AutoCleanup⟩ : Space Nat Nat)
        ⟨0, 0⟩).trace := by
  decide

/-- C9 amended: `OwnedMutexGuard::into_inner` (an orphaned module this
crate's lib.rs never uses) releases the mutex lock and returns the owned
shared handle instead of discarding it, leaving the strong count untouched;
the table's cleanup path, however, does not use it — `LockSpaceGuard::drop`
inspects the reference count through the entry handle it stores itself, and
its trace never contains an `intoInner` event. -/
theorem C9_into_inner_amended {K V : Type} [DecidableEq K] (heap : List (Entry V))
    (g : OwnedMutexGuard) (id : Nat) (s : Space K V) (gd : Guard K)
    (h : g.ownedMutex = some id) :
    (intoInner (K := K) heap g).returned = some id ∧
    (∀ e, heapGet heap id = some e →
      heapGet (intoInner (K := K) heap g).heap id =
        some ⟨e.value, LockState.Unlocked, e.strong⟩) ∧
    (∀ n, Event.intoInner n ∉ (guardDrop s gd).trace) := by
  refine ⟨?_, ?_, fun n => guardDrop_no_intoInner s gd n⟩
  · simp [intoInner, h]
  · intro e he
    simp [intoInner, h, heapGet_modifyAt_self, he]

/-- C9 witness: a concrete `into_inner` returns handle 0 with the lock
released and strong count intact, while a concrete cleanup drop emits no
`intoInner` event. -/
theorem C9_witness :
    (intoInner (K := Nat) ([⟨5, LockState.Locked, 2⟩] : List (Entry Nat))
      ⟨some 0, true⟩).returned = some 0 ∧
    heapGet (intoInner (K := Nat) ([⟨5, LockState.Locked, 2⟩] : List (Entry Nat))
      ⟨some 0, true⟩).heap 0 = some ⟨5, LockState.Unlocked, 2⟩ ∧
    Event.intoInner 0 ∉ (guardDrop (⟨[⟨7, LockState.Locked, 3⟩], [(0, 0)],
      Cleanup.KeepUnused⟩ : Space Nat Nat) ⟨0, 0⟩).trace := by
  have h := C9_into_inner_amended ([⟨5, LockState.Locked, 2⟩] : List (Entry Nat))
    ⟨some 0, true⟩ 0
    (⟨[⟨7, LockState.Locked, 3⟩], [(0, 0)], Cleanup.KeepUnused⟩ : Space Nat Nat)
    ⟨0, 0⟩ rfl
  exact ⟨h.1, h.2.1 ⟨5, LockState.Locked, 2⟩ rfl, h.2.2 0⟩

/-- C10: `lock` on an absent key never fails with a poison error (the fresh
mutex has never had a holder); whenever `lock` does fail with a poison
error, the key was already present and the space — including the poisoned
entry — is left unchanged. -/
theorem C10_absent_never_poisoned {K V : Type} [DecidableEq K] (s : Space K V)
    (k : K) (initial : Unit → V) :
    (findName s.names k = none → (lock s k initial).outcome ≠ Outcome.poisoned) ∧
    ((lock s k initial).outcome = Outcome.poisoned →
      (∃ id, findName s.names k = some id) ∧ (lock s k initial).space = s) := by
  constructor
  · intro h
    rw [lock_absent s k initial h]
    simp
  · intro hp
    rcases hfn : findName s.names k with _ | id
    · rw [lock_absent s k initial hfn] at hp
      simp at hp
    · rcases hg : heapGet s.heap id with _ | e
      · have hout : (lock s k initial).outcome = Outcome.panicked := by
          simp [lock, hfn, lockAcquire, modifyAt_modifyAt, heapGet_modifyAt_self, hg]
        rw [hout] at hp
        simp at hp
      · rcases e with ⟨v, ls, n⟩
        cases ls with
        | Unlocked =>
            rw [lock_present_unlocked s k initial id ⟨v, LockState.Unlocked, n⟩
              hfn hg rfl] at hp
            simp at hp
        | Locked =>
            rw [lock_present_locked s k initial id ⟨v, LockState.Locked, n⟩
              hfn hg rfl] at hp
            simp at hp
        | Poisoned =>
            rw [lock_present_poisoned s k initial id ⟨v, LockState.Poisoned, n⟩
              hfn hg rfl]
            exact ⟨⟨id, rfl⟩, rfl⟩


/-- C10 witness: a poisoned call at a concrete space pins the key present
and the space unchanged; the absent-key call at the empty space is not
poisoned. -/
theorem C10_witness :
    ((∃ id, findName ([(0, 0)] : List (Nat × Nat)) 0 = some id) ∧
      (lock (⟨[⟨5, LockState.Poisoned, 1⟩], [(0, 0)], Cleanup.KeepUnused⟩ : Space Nat Nat) 0
        (fun _ => 7)).space =
        ⟨[⟨5, LockState.Poisoned, 1⟩], [(0, 0)], Cleanup.KeepUnused⟩) ∧
    (lock (⟨[], [], Cleanup.KeepUnused⟩ : Space Nat Nat) 0 (fun _ => 7)).outcome ≠
      Outcome.poisoned := by
  constructor
  · exact (C10_absent_never_poisoned
      (⟨[⟨5, LockState.Poisoned, 1⟩], [(0, 0)], Cleanup.KeepUnused⟩ : Space Nat Nat) 0
      (fun _ => 7)).2 (by decide)
  · exact (C10_absent_never_poisoned (⟨[], [], Cleanup.KeepUnused⟩ : Space Nat Nat) 0
      (fun _ => 7)).1 rfl

end NamedLock
